import Mathlib

/-!
Verification of the link-extraction and URL-normalization layer of the
`linkinator` crawler (`src/links.ts`), together with a model of the crawl
orchestrator's dedup invariant.

The embedding works over a parsed document model: an HTML document is the
list of its elements in document order, each element carrying a tag name
and an attribute list (cheerio's post-parse view).  JavaScript string
operations (`split`, `trim`, regular-expression tests) are translated to
structurally recursive functions over `List Char` so that every definition
evaluates inside the kernel.  The WHATWG `URL` constructor used by
`links.ts` is an external library; it is modelled here by a simplified
executable parser (`urlNew`) that supports the scheme/authority/path/query/
fragment split, relative-reference resolution and dot-segment removal, and
fails (returns `none`) on inputs such as bracketed garbage in the host,
mirroring where `new URL(...)` throws.
-/

/-! ## JavaScript string primitives -/

/-- JavaScript whitespace (ASCII subset relevant here): members of the
regex class `\s` that can appear in attribute values. -/
def isJsWs (c : Char) : Bool :=
  c == ' ' || c == '\t' || c == '\n' || c == '\r' || c == '\x0b' || c == '\x0c'

/-- Auxiliary for `splitOnChar`: accumulates the current field (reversed). -/
def splitOnCharAux (sep : Char) : List Char → List Char → List String
  | [], acc => [String.mk acc.reverse]
  | c :: rest, acc =>
    if c == sep then String.mk acc.reverse :: splitOnCharAux sep rest []
    else splitOnCharAux sep rest (c :: acc)

/-- JavaScript `s.split(sep)` for a single-character separator:
`"a,,b".split(',') = ["a","","b"]`, `"".split(',') = [""]`. -/
def splitOnChar (sep : Char) (s : String) : List String :=
  splitOnCharAux sep s.data []

/-- JavaScript `s.trim()`: strip leading and trailing whitespace. -/
def jsTrim (s : String) : String :=
  String.mk (((s.data.dropWhile isJsWs).reverse.dropWhile isJsWs).reverse)

/-- `s.split(/\s+/)[0]` for a string with no leading whitespace: the maximal
leading run of non-whitespace characters.  (`links.ts` always applies this
after `trim()`, so the first field of the regex split is exactly this run.) -/
def firstWsToken (s : String) : String :=
  String.mk (s.data.takeWhile (fun c => !isJsWs c))

/-! ## Model of the WHATWG `URL` library (`new URL(input, base)`)

`links.ts` relies on Node's `URL` for resolution; this is a simplified
executable model of the behavior the source depends on. -/

/-- A parsed URL.  `hash` holds the fragment without the leading `#`
(`""` = no fragment), `query` the query without the leading `?`. -/
structure URLRec where
  scheme : String
  host : String
  port : String
  path : String
  query : String
  hash : String
deriving Repr, DecidableEq

/-- Characters allowed in a URI scheme after the first (RFC 3986 §3.1). -/
def isSchemeChar (c : Char) : Bool :=
  c.isAlpha || c.isDigit || c == '+' || c == '-' || c == '.'

/-- Scan for `":"` after a leading letter, lowercase the scheme.  Returns the
scheme and the remaining characters, or `none` if no scheme is present. -/
def splitSchemeAux : List Char → List Char → Option (String × List Char)
  | [], _ => none
  | c :: rest, acc =>
    if c == ':' then some (String.mk acc.reverse, rest)
    else if isSchemeChar c then splitSchemeAux rest (c.toLower :: acc)
    else none

/-- Split `s` into a scheme and the rest when `s` begins `letter class* ":"`. -/
def splitScheme (s : String) : Option (String × List Char) :=
  match s.data with
  | [] => none
  | c :: rest => if c.isAlpha then splitSchemeAux rest [c.toLower] else none

/-- The WHATWG "special" schemes (those with `//` authority and default ports). -/
def specialSchemes : List String := ["http", "https", "ws", "wss", "ftp", "file"]

def isSpecial (scheme : String) : Bool := specialSchemes.contains scheme

/-- Split off the path, query and fragment from the characters following the
authority: `path ? query # fragment`. -/
def splitRef (cs : List Char) : List Char × List Char × List Char :=
  let (beforeHash, hashPart) := cs.span (fun c => c != '#')
  let (p, qPart) := beforeHash.span (fun c => c != '?')
  (p, qPart.drop 1, hashPart.drop 1)

/-- Characters that terminate the authority component. -/
def authorityEnd (c : Char) : Bool := c == '/' || c == '?' || c == '#'

/-- Split an authority at its last `':'` into host and port candidates. -/
def splitLastColon (cs : List Char) : Option (List Char × List Char) :=
  match cs.reverse.span (fun c => c != ':') with
  | (_, []) => none
  | (revPort, _ :: revHost) => some (revHost.reverse, revPort.reverse)

/-- Numeric value of a digit string. -/
def natOfDigits (cs : List Char) : Nat :=
  cs.foldl (fun n c => n * 10 + (c.toNat - '0'.toNat)) 0

/-- Validate and split an authority into lowercased host and port.  Fails on
userinfo, brackets, spaces or percent signs (model simplification: these are
the failure cases the source's fixtures exercise), and on non-numeric or
out-of-range ports. -/
def parseHostPort (auth : List Char) : Option (String × String) :=
  if auth.any (fun c => c == '@' || c == '[' || c == ']' || c == ' ' || c == '%') then none
  else
    match splitLastColon auth with
    | none => some (String.mk (auth.map Char.toLower), "")
    | some (h, p) =>
      if p.all Char.isDigit && (p.isEmpty || natOfDigits p < 65536) then
        some (String.mk (h.map Char.toLower), String.mk p)
      else none

/-- Dot-segment removal over the segments of an absolute path (leading empty
segment already dropped); RFC 3986 §5.2.4 restricted to paths below root. -/
def removeDotSegs : List String → List String → List String
  | [], acc => acc.reverse
  | ["."], acc => ("" :: acc).reverse
  | [".."], acc => ("" :: acc.drop 1).reverse
  | "." :: rest, acc => removeDotSegs rest acc
  | ".." :: rest, acc => removeDotSegs rest (acc.drop 1)
  | s :: rest, acc => removeDotSegs rest (s :: acc)

/-- Normalize an absolute path string (starting with `/`) by removing dot
segments. -/
def normAbsPath (p : String) : String :=
  "/" ++ String.intercalate "/" (removeDotSegs ((splitOnChar '/' p).drop 1) [])

/-- Parse the part of a URL after `scheme:` as an absolute URL. -/
def parseAbsolute (scheme : String) (rest : List Char) : Option URLRec :=
  match rest with
  | '/' :: '/' :: tail =>
    let (auth, afterAuth) := tail.span (fun c => !authorityEnd c)
    match parseHostPort auth with
    | none => none
    | some (host, port) =>
      if host == "" && isSpecial scheme then none
      else
        let (p, q, f) := splitRef afterAuth
        let path := if p.isEmpty then "/" else normAbsPath (String.mk p)
        some ⟨scheme, host, port, path, String.mk q, String.mk f⟩
  | _ =>
    if isSpecial scheme then none
    else
      let (p, q, f) := splitRef rest
      some ⟨scheme, "", "", String.mk p, String.mk q, String.mk f⟩

/-- The directory part of a path: everything up to and including the last `/`. -/
def dirOf (p : String) : String :=
  match p.data.reverse.span (fun c => c != '/') with
  | (_, []) => "/"
  | (_, rest) => String.mk rest.reverse

/-- Resolve a relative reference against a parsed base URL. -/
def resolveRelative (link : String) (b : URLRec) : Option URLRec :=
  if b.host == "" then none
  else
    match link.data with
    | [] => some { b with hash := "" }
    | '/' :: '/' :: tail => parseAbsolute b.scheme ('/' :: '/' :: tail)
    | '/' :: _ =>
      let (p, q, f) := splitRef link.data
      some { b with path := normAbsPath (String.mk p), query := String.mk q, hash := String.mk f }
    | '?' :: _ =>
      let (_, q, f) := splitRef link.data
      some { b with query := String.mk q, hash := String.mk f }
    | '#' :: rest => some { b with hash := String.mk rest }
    | _ =>
      let (p, q, f) := splitRef link.data
      if p.isEmpty then some { b with query := String.mk q, hash := String.mk f }
      else
        some { b with path := normAbsPath (dirOf b.path ++ String.mk p),
                      query := String.mk q, hash := String.mk f }

/-- Model of `new URL(link, base)`: `none` where the constructor throws. -/
def urlNew (link : String) (base : String) : Option URLRec :=
  match splitScheme link with
  | some (sch, rest) => parseAbsolute sch rest
  | none =>
    match splitScheme base with
    | some (bsch, brest) => (parseAbsolute bsch brest).bind (resolveRelative link)
    | none => none

/-- Model of the `href` serialization of a parsed URL. -/
def URLRec.href (u : URLRec) : String :=
  (if u.host == "" && !isSpecial u.scheme then u.scheme ++ ":"
   else u.scheme ++ "://" ++ u.host ++ (if u.port == "" then "" else ":" ++ u.port))
  ++ u.path
  ++ (if u.query == "" then "" else "?" ++ u.query)
  ++ (if u.hash == "" then "" else "#" ++ u.hash)

/-! ## Embedding of `src/links.ts` -/

/-- An element of the parsed document: tag name plus attribute list, in the
form cheerio presents after parsing (`element.tagName`, `element.attribs`). -/
structure Element where
  tagName : String
  attribs : List (String × String)
deriving Repr, DecidableEq

/-- `element.attribs[name]`: `none` models JavaScript `undefined`. -/
def getAttr (e : Element) (name : String) : Option String :=
  (e.attribs.find? (fun p => p.1 == name)).map (fun p => p.2)

/-- The fixed attribute-to-tags table `linksAttr` of `links.ts`. -/
def linksAttr (attr : String) : List String :=
  match attr with
  | "background" => ["body"]
  | "cite" => ["blockquote", "del", "ins", "q"]
  | "data" => ["object"]
  | "href" => ["a", "area", "embed", "link"]
  | "icon" => ["command"]
  | "longdesc" => ["frame", "iframe"]
  | "manifest" => ["html"]
  | "poster" => ["video"]
  | "pluginspage" => ["embed"]
  | "pluginurl" => ["embed"]
  | "src" => ["audio", "embed", "frame", "iframe", "img", "input", "script",
              "source", "track", "video"]
  | "srcset" => ["img", "source"]
  | _ => []

/-- `Object.keys(linksAttr)`: the attribute names in the object-literal
insertion order the `for (const attr of attrs)` loop iterates in. -/
def attrOrder : List String :=
  ["background", "cite", "data", "href", "icon", "longdesc", "manifest",
   "poster", "pluginspage", "pluginurl", "src", "srcset"]

/-- The `ParsedUrl` interface of `links.ts`.  `error` holds the message of
the caught exception when resolution failed. -/
structure ParsedUrl where
  link : String
  error : Option String := none
  url : Option URLRec := none
deriving Repr, DecidableEq

/-- `isAbsoluteUrl`'s first test, the regex `/^[a-zA-Z]:\\/`. -/
def winPathTest (s : String) : Bool :=
  match s.data with
  | c :: c2 :: c3 :: _ => c.isAlpha && c2 == ':' && c3 == '\\'
  | _ => false

/-- Greedy scan for the regex tail `[a-zA-Z\d+\-.]*:`; since `':'` is not in
the character class, the greedy match is exact. -/
def schemeTestAux : List Char → Bool
  | [] => false
  | c :: rest => if c == ':' then true else if isSchemeChar c then schemeTestAux rest else false

/-- `isAbsoluteUrl`'s second test, the regex `/^[a-zA-Z][a-zA-Z\d+\-.]*:/`. -/
def schemeTest (s : String) : Bool :=
  match s.data with
  | [] => false
  | c :: rest => c.isAlpha && schemeTestAux rest

/-- `isAbsoluteUrl` of `links.ts`. -/
def isAbsoluteUrl (url : String) : Bool :=
  if winPathTest url then false else schemeTest url

/-- `parseAttr` of `links.ts`: `srcset` values split on commas, each
candidate trimmed and cut at its first whitespace; other attributes are
single-valued. -/
def parseAttr (name : String) (value : String) : List String :=
  if name == "srcset" then
    (splitOnChar ',' value).map (fun p => firstWsToken (jsTrim p))
  else [value]

/-- `parseLink` of `links.ts`: resolve, then clear the fragment; on an
exception return the raw text with the error and no URL. -/
def parseLink (link : String) (baseUrl : String) : ParsedUrl :=
  match urlNew link baseUrl with
  | some u => { link := link, url := some { u with hash := "" }, error := none }
  | none => { link := link, url := none, error := some "Invalid URL" }

/-- `getBaseUrl` of `links.ts`.  The relative branch calls `new URL`, which
can throw; `none` models that exception escaping. -/
def getBaseUrl (htmlBaseUrl : String) (oldBaseUrl : String) : Option String :=
  if isAbsoluteUrl htmlBaseUrl then some htmlBaseUrl
  else (urlNew htmlBaseUrl oldBaseUrl).map (fun u => URLRec.href { u with hash := "" })

/-- The `relValuesToIgnore` list of `getLinks`. -/
def relValuesToIgnore : List String := ["dns-prefetch", "preconnect"]

/-- The rel-based early return of `getLinks`:
`element.tagName === 'link' && relValuesToIgnore.includes(element.attribs['rel'])`
(a missing `rel` is `undefined`, which is never in the list). -/
def relIgnored (e : Element) : Bool :=
  e.tagName == "link" &&
    (match getAttr e "rel" with
     | some r => relValuesToIgnore.contains r
     | none => false)

/-- The cheerio query `$('tag1[attr],tag2[attr],...')`: elements whose tag is
registered for `attr` and that carry `attr`, in document order. -/
def selectWithAttr (doc : List Element) (attr : String) (tags : List String) : List Element :=
  doc.filter (fun e => tags.contains e.tagName && (getAttr e attr).isSome)

/-- The body of the `.each` callback for one selected element: the parsed
attribute values, minus the rel-ignored elements and the falsy values, each
pushed through `parseLink` against the effective base. -/
def processElement (attr : String) (realBaseUrl : String) (e : Element) : List ParsedUrl :=
  if relIgnored e then []
  else
    ((parseAttr attr ((getAttr e attr).getD "")).filter (fun v => v != "")).map
      (fun v => parseLink v realBaseUrl)

/-- All links contributed by one attribute of the table. -/
def collectAttr (doc : List Element) (realBaseUrl : String) (attr : String) : List ParsedUrl :=
  (selectWithAttr doc attr (linksAttr attr)).flatMap (processElement attr realBaseUrl)

/-- The `$('base[href]')` query of `getLinks`. -/
def baseElems (doc : List Element) : List Element :=
  doc.filter (fun e => e.tagName == "base" && (getAttr e "href").isSome)

/-- The `realBaseUrl` computation at the top of `getLinks`: the page URL, or
the first `<base href>` pushed through `getBaseUrl`.  `none` models the
exception `getBaseUrl` can raise. -/
def realBase (doc : List Element) (baseUrl : String) : Option String :=
  match (baseElems doc).head? with
  | none => some baseUrl
  | some b => getBaseUrl ((getAttr b "href").getD "") baseUrl

/-- `getLinks` of `links.ts` over the parsed document model: compute the
effective base, then loop over the attribute table pushing parsed links. -/
def getLinks (doc : List Element) (baseUrl : String) : Option (List ParsedUrl) :=
  (realBase doc baseUrl).map (fun realBaseUrl =>
    attrOrder.foldl (fun links attr => links ++ collectAttr doc realBaseUrl attr) [])

/-! ## Spec-side definitions (for refinement claims) -/

/-- Follows the spec's words (§4.1): a value "matches a URI scheme prefix
(`letter [letters|digits|+|-|.]* ":"`)". -/
def HasUriScheme (s : String) : Prop :=
  ∃ c body rest, s.data = c :: (body ++ ':' :: rest) ∧ c.isAlpha = true ∧
    ∀ x ∈ body, isSchemeChar x = true

/-- Follows the spec's words (§4.1): "a Windows-style drive path
(`letter ":\"`)". -/
def WindowsDrivePath (s : String) : Prop :=
  ∃ c rest, s.data = c :: ':' :: '\\' :: rest ∧ c.isAlpha = true

/-- Follows the spec's words (§4.1 `<base href>` handling): the effective
base URL of a document is the page URL, unless the document's first `<base>`
element with an `href` provides one — that href itself when absolute, or
that href resolved against the page's own URL (fragment stripped) when
relative. -/
def specEffectiveBase (doc : List Element) (pageUrl : String) : Option String :=
  match doc.find? (fun e => e.tagName == "base" && (getAttr e "href").isSome) with
  | none => some pageUrl
  | some b =>
    let h := (getAttr b "href").getD ""
    if isAbsoluteUrl h then some h
    else (urlNew h pageUrl).map (fun u => URLRec.href { u with hash := "" })

/-- Provenance of an output link of `getLinks`: it stems from a registered
attribute/tag pair of the table, from an element of the document that is not
rel-ignored, via a non-empty parsed attribute value resolved against the
effective base. -/
def Provenance (doc : List Element) (rb : String) (l : ParsedUrl) : Prop :=
  ∃ attr e v raw, attr ∈ attrOrder ∧ e ∈ doc ∧ e.tagName ∈ linksAttr attr ∧
    getAttr e attr = some v ∧ relIgnored e = false ∧
    raw ∈ parseAttr attr v ∧ raw ≠ "" ∧ l = parseLink raw rb

/-- Drop the `href` attribute of the elements the rel-exclusion of
`getLinks` applies to, leaving every other element untouched. -/
def stripIgnoredHref (e : Element) : Element :=
  if relIgnored e then { e with attribs := e.attribs.filter (fun p => p.1 != "href") }
  else e

/-! ## Model of the Crawl Orchestrator's dedup (not under `src/`) -/

/-- Modelled from the spec: the Crawl Orchestrator's per-crawl state (§3
VisitRecord set, §4.3 steps 2-5); the orchestrator implementation is not
under `src/`, only `src/links.ts` is.  `visited` is the set of seen
CanonicalKeys, `records` the VisitRecords (by key) in creation order, and
`fetches` one entry per network fetch issued. -/
structure CrawlState where
  visited : List String
  records : List String
  fetches : List String
deriving Repr, DecidableEq

/-- Modelled from the spec (§4.3 step 5): when a reference's CanonicalKey
has no VisitRecord yet, create one and fetch it once; otherwise do not
re-enqueue and do not fetch again. -/
def visitOne (st : CrawlState) (key : String) : CrawlState :=
  if key ∈ st.visited then st
  else { visited := key :: st.visited,
         records := st.records ++ [key],
         fetches := st.fetches ++ [key] }

/-- Modelled from the spec: process a document's references in order. -/
def crawlRefs (st : CrawlState) (refs : List String) : CrawlState :=
  refs.foldl visitOne st

/-- The crawl-state invariant: fetches match record creations, the record
set matches the visited set, and no key has two records. -/
def CrawlInv (st : CrawlState) : Prop :=
  st.fetches = st.records ∧ (∀ k, k ∈ st.records ↔ k ∈ st.visited) ∧
    ∀ k, st.records.count k ≤ 1

/-! ## Helper lemmas -/

lemma visitOne_inv {st : CrawlState} (h : CrawlInv st) (key : String) :
    CrawlInv (visitOne st key) := by
  obtain ⟨hf, hm, hc⟩ := h
  unfold visitOne
  split
  · exact ⟨hf, hm, hc⟩
  · rename_i hnot
    refine ⟨by simp [hf], ?_, ?_⟩
    · intro k
      simp only [List.mem_append, List.mem_singleton, List.mem_cons]
      rw [hm]; tauto
    · intro k
      rw [List.count_append]
      rcases eq_or_ne k key with rfl | hne
      · have : st.records.count k = 0 := by
          rw [List.count_eq_zero]
          intro hmem
          exact hnot ((hm k).mp hmem)
        simp [this]
      · have : List.count k [key] = 0 := by
          rw [List.count_eq_zero]
          simp [hne]
        simpa [this] using hc k

lemma visitOne_mem {st : CrawlState} (h : CrawlInv st) (key : String) :
    key ∈ (visitOne st key).records := by
  obtain ⟨_, hm, _⟩ := h
  unfold visitOne
  split
  · rename_i hv
    exact (hm key).mpr hv
  · simp

lemma visitOne_mono {st : CrawlState} {k : String} (h : k ∈ st.records) (key : String) :
    k ∈ (visitOne st key).records := by
  unfold visitOne
  split
  · exact h
  · simp [h]

lemma crawlRefs_inv {st : CrawlState} (h : CrawlInv st) (refs : List String) :
    CrawlInv (crawlRefs st refs) := by
  induction refs generalizing st with
  | nil => exact h
  | cons r rs ih => exact ih (visitOne_inv h r)

lemma crawlRefs_mono {st : CrawlState} {k : String} (h : k ∈ st.records) (refs : List String) :
    k ∈ (crawlRefs st refs).records := by
  induction refs generalizing st with
  | nil => exact h
  | cons r rs ih => exact ih (visitOne_mono h r)

lemma crawlRefs_mem {st : CrawlState} (h : CrawlInv st) {key : String} {refs : List String}
    (hk : key ∈ refs) : key ∈ (crawlRefs st refs).records := by
  induction refs generalizing st with
  | nil => cases hk
  | cons r rs ih =>
    rcases List.mem_cons.mp hk with rfl | htail
    · exact crawlRefs_mono (visitOne_mem h key) rs
    · exact ih (visitOne_inv h r) htail

/-! ## Claim theorems -/

/-- C1: per crawl there is exactly one VisitRecord per CanonicalKey and at
most one fetch for it — for any document referencing the same key any
number of times (`key ∈ refs`), the crawl ends with exactly one record and
at most one fetch for that key. -/
theorem crawl_dedup_unique_record (refs : List String) (key : String)
    (hk : key ∈ refs) :
    (crawlRefs ⟨[], [], []⟩ refs).records.count key = 1 ∧
      (crawlRefs ⟨[], [], []⟩ refs).fetches.count key ≤ 1 := by
  have h0 : CrawlInv ⟨[], [], []⟩ := by
    refine ⟨rfl, ?_, ?_⟩ <;> simp [List.count_nil]
  have hinv := crawlRefs_inv h0 refs
  obtain ⟨hf, _, hc⟩ := hinv
  have hmem := crawlRefs_mem h0 hk
  have hone : (crawlRefs ⟨[], [], []⟩ refs).records.count key = 1 :=
    Nat.le_antisymm (hc key) (List.count_pos_iff.mpr hmem)
  exact ⟨hone, by rw [hf]; exact hc key⟩

/-- C1 witness: a document referencing the key `"k"` twice yields exactly
one record and at most one fetch for `"k"`. -/
theorem crawl_dedup_unique_record_witness :
    (crawlRefs ⟨[], [], []⟩ ["k", "k"]).records.count "k" = 1 ∧
      (crawlRefs ⟨[], [], []⟩ ["k", "k"]).fetches.count "k" ≤ 1 :=
  crawl_dedup_unique_record ["k", "k"] "k" (by simp)

/-- C2: whenever resolution succeeds, the URL `parseLink` returns has its
fragment removed — its `hash` is empty, whatever the raw value carried. -/
theorem parseLink_strips_fragment (link baseUrl : String) (u : URLRec)
    (h : (parseLink link baseUrl).url = some u) : u.hash = "" := by
  unfold parseLink at h
  cases hu : urlNew link baseUrl with
  | none => rw [hu] at h; simp at h
  | some v =>
    rw [hu] at h
    simp only [Option.some.injEq] at h
    rw [← h]

/-- C2 witness: resolving `"http://x.com/a/b#frag"` succeeds and the
fragment is stripped. -/
theorem parseLink_strips_fragment_witness :
    (⟨"http", "x.com", "", "/a/b", "", ""⟩ : URLRec).hash = "" :=
  parseLink_strips_fragment "http://x.com/a/b#frag" "ignored-base"
    ⟨"http", "x.com", "", "/a/b", "", ""⟩ rfl

/-- C8: when resolution fails even against the base URL, `parseLink` still
returns a value (the `try`/`catch` swallows the exception): the result has
its `error` set, no `url`, and carries the original raw text in `link`. -/
theorem parseLink_error_result (link baseUrl : String)
    (h : urlNew link baseUrl = none) :
    (parseLink link baseUrl).error.isSome = true ∧
      (parseLink link baseUrl).url = none ∧
      (parseLink link baseUrl).link = link := by
  unfold parseLink
  rw [h]
  exact ⟨rfl, rfl, rfl⟩

/-- C8 witness: the malformed href `"https://[](fake.local)"` (the
`malformed` fixture) fails to resolve and yields an error-carrying
`ParsedUrl` with the raw text preserved. -/
theorem parseLink_error_result_witness :
    (parseLink "https://[](fake.local)" "http://fake.local/").error.isSome = true ∧
      (parseLink "https://[](fake.local)" "http://fake.local/").url = none ∧
      (parseLink "https://[](fake.local)" "http://fake.local/").link =
        "https://[](fake.local)" :=
  parseLink_error_result "https://[](fake.local)" "http://fake.local/" rfl

lemma schemeTestAux_iff (cs : List Char) :
    schemeTestAux cs = true ↔
      ∃ body rest, cs = body ++ ':' :: rest ∧ ∀ x ∈ body, isSchemeChar x = true := by
  induction cs with
  | nil =>
    constructor
    · intro h; simp [schemeTestAux] at h
    · rintro ⟨body, rest, h, -⟩
      cases body <;> simp at h
  | cons c tl ih =>
    by_cases hc : c = ':'
    · subst hc
      constructor
      · intro _
        exact ⟨[], tl, rfl, by simp⟩
      · intro _
        simp [schemeTestAux]
    · by_cases hsc : isSchemeChar c = true
      · constructor
        · intro h
          have h' : schemeTestAux tl = true := by
            simpa [schemeTestAux, hc, hsc] using h
          obtain ⟨body, r2, hb, hall⟩ := ih.mp h'
          refine ⟨c :: body, r2, by simp [hb], ?_⟩
          intro x hx
          rcases List.mem_cons.mp hx with rfl | hx'
          · exact hsc
          · exact hall x hx'
        · rintro ⟨body, r2, hb, hall⟩
          cases body with
          | nil =>
            simp only [List.nil_append, List.cons.injEq] at hb
            exact absurd hb.1 hc
          | cons b bs =>
            simp only [List.cons_append, List.cons.injEq] at hb
            obtain ⟨rfl, hb2⟩ := hb
            have htl : schemeTestAux tl = true :=
              ih.mpr ⟨bs, r2, hb2, fun x hx => hall x (List.mem_cons_of_mem _ hx)⟩
            simpa [schemeTestAux, hc, hsc] using htl
      · constructor
        · intro h
          simp [schemeTestAux, hc, hsc] at h
        · rintro ⟨body, r2, hb, hall⟩
          cases body with
          | nil =>
            simp only [List.nil_append, List.cons.injEq] at hb
            exact absurd hb.1 hc
          | cons b bs =>
            simp only [List.cons_append, List.cons.injEq] at hb
            obtain ⟨rfl, -⟩ := hb
            exact absurd (hall c (by simp)) (by simp [hsc])

lemma schemeTest_iff (s : String) : schemeTest s = true ↔ HasUriScheme s := by
  unfold schemeTest HasUriScheme
  generalize s.data = cs
  cases cs with
  | nil => simp
  | cons c tl =>
    by_cases hc : c.isAlpha = true
    · simp only [hc, Bool.true_and]
      rw [schemeTestAux_iff]
      constructor
      · rintro ⟨body, r2, rfl, hall⟩
        exact ⟨c, body, r2, rfl, hc, hall⟩
      · rintro ⟨c', body, r2, heq, hc', hall⟩
        simp only [List.cons.injEq] at heq
        obtain ⟨rfl, rfl⟩ := heq
        exact ⟨body, r2, rfl, hall⟩
    · simp only [hc, Bool.false_and]
      constructor
      · intro h; cases h
      · rintro ⟨c', body, r2, heq, hc', -⟩
        simp only [List.cons.injEq] at heq
        obtain ⟨rfl, -⟩ := heq
        exact absurd hc' hc

lemma winPathTest_iff (s : String) : winPathTest s = true ↔ WindowsDrivePath s := by
  unfold winPathTest WindowsDrivePath
  generalize s.data = cs
  rcases cs with _ | ⟨c, _ | ⟨c2, _ | ⟨c3, rest⟩⟩⟩
  · simp
  · simp
  · simp
  · constructor
    · intro h
      simp only [Bool.and_eq_true, beq_iff_eq] at h
      obtain ⟨⟨h1, rfl⟩, rfl⟩ := h
      exact ⟨c, rest, rfl, h1⟩
    · rintro ⟨c', r', heq, hc'⟩
      simp only [List.cons.injEq] at heq
      obtain ⟨rfl, rfl, rfl, -⟩ := heq
      simp [hc']

/-- C5: `isAbsoluteUrl` classifies a string as absolute exactly when it
matches a URI scheme prefix (a letter, then letters/digits/`+`/`-`/`.`,
then `:`) and is not a Windows-style drive path (a letter then `:\`). -/
theorem isAbsoluteUrl_iff (s : String) :
    isAbsoluteUrl s = true ↔ (HasUriScheme s ∧ ¬ WindowsDrivePath s) := by
  unfold isAbsoluteUrl
  by_cases hw : winPathTest s = true
  · have hwp : WindowsDrivePath s := (winPathTest_iff s).mp hw
    simp [hw, hwp]
  · have hwp : ¬ WindowsDrivePath s := fun h => hw ((winPathTest_iff s).mpr h)
    simp [hw, hwp, schemeTest_iff]

lemma foldl_append_eq_flatMap {α β : Type} (f : α → List β) (l : List α) :
    ∀ init : List β, l.foldl (fun acc a => acc ++ f a) init = init ++ l.flatMap f := by
  induction l with
  | nil => intro init; simp
  | cons a tl ih => intro init; simp [List.foldl_cons, ih, List.flatMap_cons]

/-- `getLinks` as the concatenation, in table order, of the per-attribute
extractions against the effective base. -/
lemma getLinks_eq (doc : List Element) (b : String) :
    getLinks doc b =
      (realBase doc b).map (fun rb => attrOrder.flatMap (collectAttr doc rb)) := by
  unfold getLinks
  cases realBase doc b with
  | none => rfl
  | some rb => simp [foldl_append_eq_flatMap]

lemma head?_filter {α : Type} (p : α → Bool) (l : List α) :
    (l.filter p).head? = l.find? p := by
  induction l with
  | nil => rfl
  | cons a tl ih =>
    by_cases h : p a = true
    · rw [List.filter_cons, if_pos h, List.find?_cons_of_pos _ h]; rfl
    · rw [List.filter_cons, if_neg h, List.find?_cons_of_neg _ h, ih]

lemma mem_of_head?_eq {α : Type} {l : List α} {a : α} (h : l.head? = some a) : a ∈ l := by
  cases l with
  | nil => cases h
  | cons b tl =>
    simp only [List.head?_cons, Option.some.injEq] at h
    simp [h]

/-- C9: the output of `getLinks` is grouped by attribute in the fixed table
order, each group in document order; concretely, an `img src` occurring
before an `a href` in the markup comes after it in the output. -/
theorem getLinks_attr_table_order :
    (∀ doc b, getLinks doc b =
      (realBase doc b).map (fun rb => attrOrder.flatMap (fun attr =>
        (selectWithAttr doc attr (linksAttr attr)).flatMap (processElement attr rb)))) ∧
    getLinks [⟨"img", [("src", "i.png")]⟩, ⟨"a", [("href", "p.html")]⟩] "http://e.com/" =
      some [parseLink "p.html" "http://e.com/", parseLink "i.png" "http://e.com/"] := by
  constructor
  · intro doc b
    exact getLinks_eq doc b
  · rfl

/-- C4: the effective base URL that `getLinks` resolves every extracted
link against is the one the spec describes — the page URL unless the first
`<base>` element carrying an `href` overrides it, that href verbatim when
absolute, and that href resolved against the page's own URL when relative;
a second `<base>` element is ignored. -/
theorem getLinks_uses_spec_effective_base :
    (∀ doc pageUrl, realBase doc pageUrl = specEffectiveBase doc pageUrl) ∧
    (∀ doc pageUrl, getLinks doc pageUrl =
      (specEffectiveBase doc pageUrl).map (fun rb => attrOrder.flatMap (collectAttr doc rb))) ∧
    getLinks [⟨"base", [("href", "/newBase/")]⟩, ⟨"base", [("href", "/second/")]⟩,
              ⟨"a", [("href", "ok")]⟩] "http://fake.local/pageBase/index" =
      some [parseLink "ok" "http://fake.local/newBase/"] := by
  have hbase : ∀ doc pageUrl, realBase doc pageUrl = specEffectiveBase doc pageUrl := by
    intro doc pageUrl
    unfold realBase specEffectiveBase baseElems
    rw [head?_filter]
    cases hf : doc.find? (fun e => e.tagName == "base" && (getAttr e "href").isSome) with
    | none => rfl
    | some bel => simp [getBaseUrl]
  refine ⟨hbase, ?_, rfl⟩
  intro doc pageUrl
  rw [getLinks_eq, hbase]

/-- C7: every link `getLinks` outputs stems from a registered
attribute/tag pair of the table (`Provenance`); an attribute sitting on a
tag not registered for it — such as `href` on `img` — contributes nothing. -/
theorem getLinks_registered_pairs_only :
    (∀ doc b links l, getLinks doc b = some links → l ∈ links →
      ∃ rb, realBase doc b = some rb ∧ Provenance doc rb l) ∧
    (∀ b, getLinks [⟨"img", [("href", "http://x.com/")]⟩] b = some []) := by
  constructor
  · intro doc b links l hsome hmem
    rw [getLinks_eq] at hsome
    cases hrb : realBase doc b with
    | none => rw [hrb] at hsome; cases hsome
    | some rb =>
      rw [hrb] at hsome
      simp only [Option.map_some', Option.some.injEq] at hsome
      subst hsome
      refine ⟨rb, rfl, ?_⟩
      obtain ⟨attr, hattr, hl⟩ := List.mem_flatMap.mp hmem
      unfold collectAttr at hl
      obtain ⟨e, he, hle⟩ := List.mem_flatMap.mp hl
      unfold selectWithAttr at he
      obtain ⟨hedoc, hsel⟩ := List.mem_filter.mp he
      rw [Bool.and_eq_true] at hsel
      obtain ⟨hc, hs⟩ := hsel
      obtain ⟨v, hv⟩ := Option.isSome_iff_exists.mp hs
      unfold processElement at hle
      cases hri : relIgnored e with
      | true => rw [hri] at hle; simp at hle
      | false =>
        rw [hri] at hle
        simp only [Bool.false_eq_true, if_false] at hle
        obtain ⟨raw, hrawmem, hrfl⟩ := List.mem_map.mp hle
        obtain ⟨hrawparse, hrawne⟩ := List.mem_filter.mp hrawmem
        rw [hv] at hrawparse
        refine ⟨attr, e, v, raw, hattr, hedoc, ?_, hv, hri, hrawparse, bne_iff_ne.mp hrawne, hrfl.symm⟩
        simpa using hc
  · intro b
    rfl

/-- C7 witness: a single `a href` document, whose one output link has the
required provenance. -/
theorem getLinks_registered_pairs_only_witness :
    ∃ rb, realBase [⟨"a", [("href", "p.html")]⟩] "http://e.com/" = some rb ∧
      Provenance [⟨"a", [("href", "p.html")]⟩] rb (parseLink "p.html" "http://e.com/") :=
  getLinks_registered_pairs_only.1 [⟨"a", [("href", "p.html")]⟩] "http://e.com/"
    [parseLink "p.html" "http://e.com/"] (parseLink "p.html" "http://e.com/")
    rfl (by simp)

/-- C6: `srcset` extraction splits the value on commas, takes each
candidate's leading whitespace-delimited token (descriptors discarded), and
turns exactly the non-empty tokens into references; end to end on a
one-`img` document, and concretely on a descriptor-carrying value. -/
theorem srcset_extraction :
    (∀ v b, getLinks [⟨"img", [("srcset", v)]⟩] b =
      some ((((splitOnChar ',' v).map (fun p => firstWsToken (jsTrim p))).filter
              (fun t => t != "")).map (fun t => parseLink t b))) ∧
    parseAttr "srcset" "a.png 1x, b.png 2x, ,c.png" = ["a.png", "b.png", "", "c.png"] := by
  constructor
  · intro v b
    have hrb : realBase [⟨"img", [("srcset", v)]⟩] b = some b := rfl
    rw [getLinks_eq, hrb]
    simp only [Option.map_some', Option.some.injEq, attrOrder, List.flatMap_cons,
      List.flatMap_nil, collectAttr, selectWithAttr, linksAttr, getAttr, processElement,
      relIgnored, parseAttr, List.filter_cons, List.filter_nil]
    simp [processElement, relIgnored, getAttr, parseAttr]
  · rfl

lemma strip_tagName (e : Element) : (stripIgnoredHref e).tagName = e.tagName := by
  unfold stripIgnoredHref
  split <;> rfl

lemma tagName_of_relIgnored {e : Element} (h : relIgnored e = true) : e.tagName = "link" := by
  unfold relIgnored at h
  rw [Bool.and_eq_true] at h
  exact beq_iff_eq.mp h.1

lemma relIgnored_eq_false_of_tag {e : Element} (h : e.tagName ≠ "link") :
    relIgnored e = false := by
  unfold relIgnored
  simp [h]

lemma find?_filter_key_ne {a : String} (ha : a ≠ "href") (l : List (String × String)) :
    (l.filter (fun p => p.1 != "href")).find? (fun p => p.1 == a) =
      l.find? (fun p => p.1 == a) := by
  induction l with
  | nil => rfl
  | cons kv tl ih =>
    by_cases hk : kv.1 = a
    · have hkh : (kv.1 != "href") = true := bne_iff_ne.mpr (hk ▸ ha)
      rw [List.filter_cons, if_pos hkh,
        @List.find?_cons_of_pos _ (fun p => p.1 == a) kv (tl.filter (fun p => p.1 != "href"))
          (beq_iff_eq.mpr hk),
        @List.find?_cons_of_pos _ (fun p => p.1 == a) kv tl (beq_iff_eq.mpr hk)]
    · have hka : ¬ ((kv.1 == a) = true) := by simp [hk]
      by_cases hkh : (kv.1 != "href") = true
      · rw [List.filter_cons, if_pos hkh,
          @List.find?_cons_of_neg _ (fun p => p.1 == a) kv (tl.filter (fun p => p.1 != "href")) hka,
          @List.find?_cons_of_neg _ (fun p => p.1 == a) kv tl hka, ih]
      · rw [List.filter_cons, if_neg hkh,
          @List.find?_cons_of_neg _ (fun p => p.1 == a) kv tl hka, ih]

lemma find?_filter_href_none (l : List (String × String)) :
    (l.filter (fun p => p.1 != "href")).find? (fun p => p.1 == "href") = none := by
  rw [List.find?_eq_none]
  intro x hx
  have hpx := (List.mem_filter.mp hx).2
  simpa using hpx

lemma getAttr_strip (e : Element) (a : String) :
    getAttr (stripIgnoredHref e) a =
      if relIgnored e = true ∧ a = "href" then none else getAttr e a := by
  unfold stripIgnoredHref
  by_cases hri : relIgnored e = true
  · rw [if_pos hri]
    by_cases ha : a = "href"
    · subst ha
      rw [if_pos ⟨hri, rfl⟩]
      show ((e.attribs.filter (fun p => p.1 != "href")).find? (fun p => p.1 == "href")).map
        (fun p => p.2) = none
      rw [find?_filter_href_none]
      rfl
    · rw [if_neg (by tauto)]
      show ((e.attribs.filter (fun p => p.1 != "href")).find? (fun p => p.1 == a)).map
          (fun p => p.2) =
        (e.attribs.find? (fun p => p.1 == a)).map (fun p => p.2)
      rw [find?_filter_key_ne ha]
  · rw [if_neg hri, if_neg (by tauto)]

lemma relIgnored_strip (e : Element) : relIgnored (stripIgnoredHref e) = relIgnored e := by
  unfold relIgnored
  rw [strip_tagName, getAttr_strip]
  simp

lemma strip_eq_of_not_ignored {e : Element} (h : relIgnored e = false) :
    stripIgnoredHref e = e := by
  unfold stripIgnoredHref
  simp [h]

lemma basePred_strip (e : Element) :
    ((stripIgnoredHref e).tagName == "base" && (getAttr (stripIgnoredHref e) "href").isSome) =
      (e.tagName == "base" && (getAttr e "href").isSome) := by
  cases hri : relIgnored e with
  | false => rw [strip_eq_of_not_ignored hri]
  | true =>
    have ht := tagName_of_relIgnored hri
    rw [strip_tagName]
    simp [ht]

lemma realBase_strip (doc : List Element) (b : String) :
    realBase (doc.map stripIgnoredHref) b = realBase doc b := by
  unfold realBase baseElems
  rw [List.filter_map]
  have hpred : ((fun e => e.tagName == "base" && (getAttr e "href").isSome) ∘ stripIgnoredHref) =
      (fun e => e.tagName == "base" && (getAttr e "href").isSome) := by
    funext e
    exact basePred_strip e
  rw [hpred, List.head?_map]
  cases hh : (doc.filter (fun e => e.tagName == "base" && (getAttr e "href").isSome)).head? with
  | none => rfl
  | some bel =>
    have hmem := mem_of_head?_eq hh
    have hpb := (List.mem_filter.mp hmem).2
    rw [Bool.and_eq_true] at hpb
    have htag : bel.tagName = "base" := beq_iff_eq.mp hpb.1
    have hni : relIgnored bel = false := relIgnored_eq_false_of_tag (by rw [htag]; decide)
    simp only [Option.map_some']
    rw [strip_eq_of_not_ignored hni]

lemma collectAttr_cons (e : Element) (doc : List Element) (rb attr : String) :
    collectAttr (e :: doc) rb attr =
      (if ((linksAttr attr).contains e.tagName && (getAttr e attr).isSome) = true then
        processElement attr rb e else []) ++ collectAttr doc rb attr := by
  unfold collectAttr selectWithAttr
  rw [List.filter_cons]
  by_cases h : ((linksAttr attr).contains e.tagName && (getAttr e attr).isSome) = true
  · rw [if_pos h, if_pos h, List.flatMap_cons]
  · rw [if_neg h, if_neg h, List.nil_append]

lemma collectAttr_strip (rb attr : String) (doc : List Element) :
    collectAttr (doc.map stripIgnoredHref) rb attr = collectAttr doc rb attr := by
  induction doc with
  | nil => rfl
  | cons e tl ih =>
    rw [List.map_cons, collectAttr_cons, collectAttr_cons, ih]
    congr 1
    cases hri : relIgnored e with
    | false => rw [strip_eq_of_not_ignored hri]
    | true =>
      have hpe : processElement attr rb e = [] := by
        unfold processElement
        rw [if_pos hri]
      have hpe' : processElement attr rb (stripIgnoredHref e) = [] := by
        unfold processElement
        rw [relIgnored_strip, if_pos hri]
      rw [hpe, hpe', ite_self, ite_self]

/-- C3: stripping the `href` of every `<link>` element whose `rel` is
`dns-prefetch` or `preconnect` does not change the output of `getLinks` —
such hrefs are never extracted while everything else still is; concretely,
a preconnect link plus a real stylesheet link yields exactly the stylesheet
reference. -/
theorem rel_ignored_href_never_extracted :
    (∀ doc b, getLinks doc b = getLinks (doc.map stripIgnoredHref) b) ∧
    getLinks [⟨"link", [("rel", "preconnect"), ("href", "http://other.local/")]⟩,
              ⟨"link", [("rel", "stylesheet"), ("href", "/site.css")]⟩] "http://fake.local/" =
      some [parseLink "/site.css" "http://fake.local/"] := by
  constructor
  · intro doc b
    rw [getLinks_eq, getLinks_eq, realBase_strip]
    cases realBase doc b with
    | none => rfl
    | some rb =>
      simp only [Option.map_some', Option.some.injEq]
      have hfun : collectAttr (doc.map stripIgnoredHref) rb = collectAttr doc rb := by
        funext attr
        exact collectAttr_strip rb attr doc
      rw [hfun]
  · rfl

/-- C10: the dns-prefetch/preconnect exclusion fires exactly when the
element is a `<link>` whose `rel` is literally one of the two strings; a
multi-token `rel` such as `"preconnect stylesheet"`, or a missing `rel`,
leaves the `href` extracted. -/
theorem rel_exclusion_exact_match :
    (∀ e, relIgnored e = true ↔
      (e.tagName = "link" ∧
        (getAttr e "rel" = some "dns-prefetch" ∨ getAttr e "rel" = some "preconnect"))) ∧
    getLinks [⟨"link", [("rel", "preconnect stylesheet"), ("href", "/x.css")]⟩]
        "http://fake.local/" = some [parseLink "/x.css" "http://fake.local/"] ∧
    getLinks [⟨"link", [("href", "/y.css")]⟩] "http://fake.local/" =
      some [parseLink "/y.css" "http://fake.local/"] := by
  refine ⟨?_, rfl, rfl⟩
  intro e
  unfold relIgnored relValuesToIgnore
  cases hr : getAttr e "rel" with
  | none => simp
  | some r =>
    simp only [Bool.and_eq_true, beq_iff_eq, Option.some.injEq]
    constructor
    · rintro ⟨h1, h2⟩
      simp only [List.contains_cons, List.contains_nil, Bool.or_eq_true, beq_iff_eq,
        Bool.or_false] at h2
      exact ⟨h1, by tauto⟩
    · rintro ⟨h1, h2⟩
      refine ⟨h1, ?_⟩
      simp only [List.contains_cons, List.contains_nil, Bool.or_eq_true, beq_iff_eq,
        Bool.or_false]
      tauto
